import Mathlib

/-!
Verification of the Unity FindObject deprecation fixer
(`fix_findobject.py`) against its specification.

The script's core is a list `REPLACEMENTS` of seven
(regex pattern, replacement template) pairs, a per-file procedure
`fix_file` that applies `re.sub` for each pair in order to the file's
text, counts `content.count(pattern.replace(r'\(', '(').replace(r'\)', ')'))`
for each pair whose substitution changed the text, and writes the file
back once if the final text differs from the original, and a driver
`fix_directory` that accumulates `total_files` and `total_changes`.

Every pattern in `REPLACEMENTS` has the same shape: a literal part,
then a single capture group `([^X]+)` for a one-character class
complement `X` (`>` for the generic-call rules, `)` for the
`typeof` rule), then a literal part that begins with that very
character `X`.  Because the group cannot match `X` and the following
literal requires `X` immediately, the Python regex engine's
backtracking can never shorten the greedy group: a match at a given
position exists iff the first literal is present, followed by a
nonempty run of non-`X` characters, followed immediately by the second
literal.  The embedding below (`matchAt`) implements exactly this
semantics, and `subst` implements `re.sub`'s leftmost, non-overlapping
global substitution (scan left to right, on a match emit the
instantiated template and resume after the match).
-/

namespace FixFindObject

/-- File text, as the list of its characters. -/
abbrev Text := List Char

/-- One entry of `REPLACEMENTS`.  `pat` is the regex source string,
verbatim from the Python file.  `pre`, `excl`, `post` are the meaning
of `pat`: literal prefix, the excluded character of the `([^excl]+)`
capture group, and the literal tail (which always starts with `excl`).
`rpre` and `rpost` are the replacement template around the
back-reference `\1`. -/
structure Rule where
  pat : Text
  pre : Text
  excl : Char
  post : Text
  rpre : Text
  rpost : Text
deriving DecidableEq, Repr

/-- `r'FindObjectOfType<([^>]+)>\(\)'` → `r'FindFirstObjectByType<\1>()'`. -/
def rule1 : Rule :=
  { pat := "FindObjectOfType<([^>]+)>\\(\\)".toList
    pre := "FindObjectOfType<".toList
    excl := '>'
    post := ">()".toList
    rpre := "FindFirstObjectByType<".toList
    rpost := ">()".toList }

/-- `r'FindObjectOfType<([^>]+)>\(true\)'` → `r'FindFirstObjectByType<\1>(FindObjectsInactive.Include)'`. -/
def rule2 : Rule :=
  { pat := "FindObjectOfType<([^>]+)>\\(true\\)".toList
    pre := "FindObjectOfType<".toList
    excl := '>'
    post := ">(true)".toList
    rpre := "FindFirstObjectByType<".toList
    rpost := ">(FindObjectsInactive.Include)".toList }

/-- `r'FindObjectOfType<([^>]+)>\(false\)'` → `r'FindFirstObjectByType<\1>()'`. -/
def rule3 : Rule :=
  { pat := "FindObjectOfType<([^>]+)>\\(false\\)".toList
    pre := "FindObjectOfType<".toList
    excl := '>'
    post := ">(false)".toList
    rpre := "FindFirstObjectByType<".toList
    rpost := ">()".toList }

/-- `r'FindObjectOfType\(typeof\(([^)]+)\)\)'` → `r'FindFirstObjectByType(typeof(\1))'`. -/
def rule4 : Rule :=
  { pat := "FindObjectOfType\\(typeof\\(([^)]+)\\)\\)".toList
    pre := "FindObjectOfType(typeof(".toList
    excl := ')'
    post := "))".toList
    rpre := "FindFirstObjectByType(typeof(".toList
    rpost := "))".toList }

/-- `r'FindObjectsOfType<([^>]+)>\(\)'` → `r'FindObjectsByType<\1>(FindObjectsSortMode.None)'`. -/
def rule5 : Rule :=
  { pat := "FindObjectsOfType<([^>]+)>\\(\\)".toList
    pre := "FindObjectsOfType<".toList
    excl := '>'
    post := ">()".toList
    rpre := "FindObjectsByType<".toList
    rpost := ">(FindObjectsSortMode.None)".toList }

/-- `r'FindObjectsOfType<([^>]+)>\(true\)'` → `r'FindObjectsByType<\1>(FindObjectsInactive.Include, FindObjectsSortMode.None)'`. -/
def rule6 : Rule :=
  { pat := "FindObjectsOfType<([^>]+)>\\(true\\)".toList
    pre := "FindObjectsOfType<".toList
    excl := '>'
    post := ">(true)".toList
    rpre := "FindObjectsByType<".toList
    rpost := ">(FindObjectsInactive.Include, FindObjectsSortMode.None)".toList }

/-- `r'FindObjectsOfType<([^>]+)>\(false\)'` → `r'FindObjectsByType<\1>(FindObjectsSortMode.None)'`. -/
def rule7 : Rule :=
  { pat := "FindObjectsOfType<([^>]+)>\\(false\\)".toList
    pre := "FindObjectsOfType<".toList
    excl := '>'
    post := ">(false)".toList
    rpre := "FindObjectsByType<".toList
    rpost := ">(FindObjectsSortMode.None)".toList }

/-- The ordered rule table `REPLACEMENTS`. -/
def RULES : List Rule := [rule1, rule2, rule3, rule4, rule5, rule6, rule7]

/-- Strip the literal `p` from the front of `s`; `none` if `p` is not a
prefix of `s`. -/
def dropPre : Text → Text → Option Text
  | [], s => some s
  | _ :: _, [] => none
  | p :: ps, c :: cs => if c = p then dropPre ps cs else none

/-- Try to match rule `r` at the start of `s`.  On success, return the
text captured by the group and the remainder of `s` after the whole
match.  Per the regex shape (see the file header), a match is: the
literal `r.pre`, then a maximal nonempty run of characters other than
`r.excl` (the group), then the literal `r.post`. -/
def matchAt (r : Rule) (s : Text) : Option (Text × Text) :=
  match dropPre r.pre s with
  | none => none
  | some t =>
    let cap := t.takeWhile (fun c => c ≠ r.excl)
    if cap.isEmpty then none
    else
      match dropPre r.post (t.dropWhile (fun c => c ≠ r.excl)) with
      | none => none
      | some rest => some (cap, rest)

/-- The span of the match of `r` at position `i` of `t`, if any: on a
match, the total length of the matched text (so the match occupies
positions `i` to `i + span`, exclusive). -/
def matchSpan (r : Rule) (t : Text) (i : Nat) : Option Nat :=
  (matchAt r (t.drop i)).map (fun p => r.pre.length + p.1.length + r.post.length)

/-- One step of `re.sub`'s left-to-right scan, with explicit fuel so
that the definition is structurally recursive (the fuel is always
instantiated with the text length, which bounds the number of steps). -/
def substF (r : Rule) : Nat → Text → Text
  | 0, s => s
  | _ + 1, [] => []
  | fuel + 1, c :: cs =>
    match matchAt r (c :: cs) with
    | some (cap, rest) => r.rpre ++ cap ++ r.rpost ++ substF r fuel rest
    | none => c :: substF r fuel cs

/-- `re.sub(pattern, replacement, s)` for one rule: replace every
non-overlapping leftmost match, instantiating the template as
`rpre ++ captured group ++ rpost`. -/
def subst (r : Rule) (s : Text) : Text :=
  substF r s.length s

/-- Python `str.replace([a,b], [c])`: rewrite every non-overlapping
occurrence of the two-character sequence `a b` to the single
character `c`, scanning left to right. -/
def replace2 (a b newc : Char) : Text → Text
  | [] => []
  | [x] => [x]
  | x :: y :: rest =>
    if x = a ∧ y = b then newc :: replace2 a b newc rest
    else x :: replace2 a b newc (y :: rest)

/-- `pattern.replace(r'\(', '(').replace(r'\)', ')')`: undo the regex
escaping of parentheses in a pattern string. -/
def deEscape (p : Text) : Text :=
  replace2 '\\' ')' ')' (replace2 '\\' '(' '(' p)

/-- Python `s.count(p :: ps)` for a nonempty search string: the number
of non-overlapping occurrences, scanning left to right.  As with
`substF`, the fuel makes the recursion structural; it is always
instantiated with the text length, which bounds the number of steps. -/
def pyCountF (p : Char) (ps : Text) : Nat → Text → Nat
  | 0, _ => 0
  | _ + 1, [] => 0
  | fuel + 1, c :: cs =>
    if (p :: ps).isPrefixOf (c :: cs) then pyCountF p ps fuel (cs.drop ps.length) + 1
    else pyCountF p ps fuel cs

/-- Python `s.count(pat)` (for the empty search string Python returns
`len(s) + 1`). -/
def pyCount (pat : Text) (s : Text) : Nat :=
  match pat with
  | [] => s.length + 1
  | p :: ps => pyCountF p ps s.length s

/-- The loop body of `fix_file`: apply the rules in order, each to the
output of the previous one; whenever a substitution changed the text,
add `content.count(deEscape pattern)` of the text it was applied to
(the current content, before this rule's substitution).  Returns the
final text and the accumulated `changes_made`. -/
def applyRules : List Rule → Text → Text × Nat
  | [], t => (t, 0)
  | r :: rs, t =>
    let t' := subst r t
    let n := if t' ≠ t then pyCount (deEscape r.pat) t else 0
    let res := applyRules rs t'
    (res.1, n + res.2)

/-- The full rewrite of one file's text by all seven rules. -/
def fixText (t : Text) : Text :=
  (applyRules RULES t).1

/-- The `changes_made` accumulator of `fix_file` after the loop. -/
def changesMade (t : Text) : Nat :=
  (applyRules RULES t).2

/-- Observable outcome of `fix_file` on one file: the list of texts
written back to the file (in order), the returned count, and the
`(path, message)` error reports printed. -/
structure FileReport where
  written : List Text
  count : Nat
  errors : List (String × String)
deriving DecidableEq, Repr

/-- `fix_file`.  The whole body runs inside `try/except`: reading the
file may fail (I/O or decoding error), which is modelled by an
`Except` input.  On a read error nothing is written, the error is
reported with the file path and the underlying message, and `0` is
returned.  On a successful read the rules are applied; the new text is
written back (once) and `changes_made` returned only if the final text
differs from the original, else nothing is written and `0` is
returned. -/
def fixFile (path : String) (readRes : Except String Text) : FileReport :=
  match readRes with
  | .error e => { written := [], count := 0, errors := [(path, e)] }
  | .ok content =>
    let res := applyRules RULES content
    if res.1 ≠ content then { written := [res.1], count := res.2, errors := [] }
    else { written := [], count := 0, errors := [] }

/-- The summary accumulators of `fix_directory`: `total_files` is
incremented, and `total_changes` increased by the per-file count,
exactly for the files whose `fix_file` result is positive. -/
def runSummary : List (String × Except String Text) → Nat × Nat
  | [] => (0, 0)
  | f :: fs =>
    let c := (fixFile f.1 f.2).count
    let rest := runSummary fs
    if 0 < c then (rest.1 + 1, rest.2 + c) else rest

/-- The text of a successfully read file; a file whose read failed
contributes the empty text (it is never transformed). -/
def readOk : Except String Text → Text
  | .ok c => c
  | .error _ => []

/-- All error reports printed during a run, in file order. -/
def runReports : List (String × Except String Text) → List (String × String)
  | [] => []
  | f :: fs => (fixFile f.1 f.2).errors ++ runReports fs

/-- `true` iff `p` occurs as a contiguous subsequence of `s`. -/
def containsSeq (p : Text) : Text → Bool
  | [] => p.isEmpty
  | c :: cs => p.isPrefixOf (c :: cs) || containsSeq p cs

/-- The number of positions of `s` at which `d` occurs (i.e. at which
`d` is a prefix of the suffix of `s` starting there).  For the search
strings used by the counting code — which cannot overlap themselves —
this agrees with Python's non-overlapping `str.count`. -/
def occCount (d : Text) : Text → Nat
  | [] => 0
  | c :: cs => (if d.isPrefixOf (c :: cs) then 1 else 0) + occCount d cs

/-- The seven de-escaped pattern strings, in rule order: the literal
texts whose occurrences the counting line of `fix_file` counts. -/
def DS : List Text := RULES.map (fun r => deEscape r.pat)

/-- Modelled from the spec's words (C4), to be compared with the
accumulator of `applyRules`: the sum, over exactly those rules whose
substitution changed the current text, of the number of occurrences in
the ORIGINAL (pre-rewrite) content of the rule's de-escaped pattern.
(The code counts in the current text instead; the two agree by the
occurrence-preservation theorems below.) -/
def specSum : List Rule → Text → Text → Nat
  | [], _, _ => 0
  | r :: rs, cur, orig =>
    (if subst r cur ≠ cur then pyCount (deEscape r.pat) orig else 0)
      + specSum rs (subst r cur) orig

/-- The number of capital `F` characters in a text.  Every rule's
replacement template has strictly more `F`s in its literal parts than
the matched literal parts, so this measure strictly increases whenever
a substitution changes the text. -/
def countF : Text → Nat
  | [] => 0
  | c :: cs => (if c = 'F' then 1 else 0) + countF cs

/-- The decidable side conditions under which one rule's substitution
preserves the occurrence count of one search string `d`: `d` and its
occurrences can never overlap the literal parts of a match or of its
replacement.  All seven rules and all seven de-escaped patterns
satisfy them (checked by `decide`). -/
def Compat (r : Rule) (d : Text) : Prop :=
  d.head? = some 'F' ∧
  (∀ c ∈ d.tail, c ≠ 'F') ∧
  r.pre.head? = some 'F' ∧
  r.rpre.head? = some 'F' ∧
  (∀ o : Fin r.pre.length, o.val = 0 ∨
    (¬ d <+: r.pre.drop o.val ∧ ¬ r.pre.drop o.val <+: d)) ∧
  (∀ o : Fin r.post.length,
    ¬ d <+: r.post.drop o.val ∧ ¬ r.post.drop o.val <+: d) ∧
  (∀ o : Fin r.rpre.length,
    ¬ d <+: r.rpre.drop o.val ∧ ¬ r.rpre.drop o.val <+: d) ∧
  (∀ o : Fin r.rpost.length,
    ¬ d <+: r.rpost.drop o.val ∧ ¬ r.rpost.drop o.val <+: d) ∧
  (∀ m : Fin d.length, (∀ c ∈ d.take m.val, c ≠ r.excl) →
    ((¬ d.drop m.val <+: r.post ∧ ¬ r.post <+: d.drop m.val) ∧
     (¬ d.drop m.val <+: r.rpost ∧ ¬ r.rpost <+: d.drop m.val)))

instance (r : Rule) (d : Text) : Decidable (Compat r d) := by
  unfold Compat
  exact inferInstance

end FixFindObject

namespace FixFindObject

/-! ### Basic properties of the matcher and the substitution scan -/

theorem dropPre_iff (p : Text) : ∀ s t : Text, dropPre p s = some t ↔ s = p ++ t := by
  induction p with
  | nil =>
    intro s t
    simp only [dropPre, Option.some.injEq, List.nil_append]
  | cons a ps ih =>
    intro s t
    cases s with
    | nil => simp [dropPre]
    | cons c cs =>
      by_cases hca : c = a
      · subst hca
        simp [dropPre, ih]
      · simp [dropPre, hca, List.cons_eq_cons]

theorem matchAt_some {r : Rule} {s cap rest : Text}
    (h : matchAt r s = some (cap, rest)) :
    s = r.pre ++ cap ++ r.post ++ rest ∧ cap ≠ [] ∧ ∀ c ∈ cap, c ≠ r.excl := by
  unfold matchAt at h
  rcases ht : dropPre r.pre s with _ | t
  · rw [ht] at h; exact absurd h (by simp)
  · rw [ht] at h
    simp only at h
    by_cases he : (t.takeWhile (fun c => c ≠ r.excl)).isEmpty
    · rw [if_pos he] at h; exact absurd h (by simp)
    · rw [if_neg he] at h
      rcases hr : dropPre r.post (t.dropWhile (fun c => c ≠ r.excl)) with _ | rest'
      · rw [hr] at h; exact absurd h (by simp)
      · rw [hr] at h
        simp only [Option.some.injEq, Prod.mk.injEq] at h
        obtain ⟨hcap, hrest⟩ := h
        subst hcap; subst hrest
        rw [dropPre_iff] at ht hr
        refine ⟨?_, ?_, ?_⟩
        · have h2 : t = t.takeWhile (fun c => decide (c ≠ r.excl)) ++ (r.post ++ rest') := by
            rw [← hr, List.takeWhile_append_dropWhile]
          rw [ht]
          conv_lhs => rw [h2]
          simp [List.append_assoc]
        · intro hnil
          rw [hnil] at he
          simp at he
        · intro c hc
          have := List.mem_takeWhile_imp hc
          simpa using this

theorem matchAt_rest_length {r : Rule} {s cap rest : Text}
    (h : matchAt r s = some (cap, rest)) : rest.length < s.length := by
  obtain ⟨hs, hcap, -⟩ := matchAt_some h
  have : cap.length ≠ 0 := by
    intro h0
    exact hcap (List.length_eq_zero.1 h0)
  rw [hs]
  simp only [List.length_append]
  omega

theorem matchAt_nil (r : Rule) : matchAt r [] = none := by
  rcases h : matchAt r [] with _ | ⟨cap, rest⟩
  · rfl
  · have := matchAt_rest_length h
    simp at this

theorem substF_congr (r : Rule) :
    ∀ (f1 : Nat) (f2 : Nat) (s : Text), s.length ≤ f1 → s.length ≤ f2 →
      substF r f1 s = substF r f2 s := by
  intro f1
  induction f1 with
  | zero =>
    intro f2 s h1 _
    have : s = [] := List.length_eq_zero.1 (Nat.le_zero.1 h1)
    subst this
    cases f2 <;> rfl
  | succ g ih =>
    intro f2 s h1 h2
    cases s with
    | nil => cases f2 <;> rfl
    | cons c cs =>
      cases f2 with
      | zero => simp at h2
      | succ g2 =>
        rcases hm : matchAt r (c :: cs) with _ | ⟨cap, rest⟩
        · simp only [substF, hm]
          have hc : cs.length ≤ g := by
            simp only [List.length_cons] at h1; omega
          have hc2 : cs.length ≤ g2 := by
            simp only [List.length_cons] at h2; omega
          rw [ih g2 cs hc hc2]
        · simp only [substF, hm]
          have hlt := matchAt_rest_length hm
          simp only [List.length_cons] at h1 h2 hlt
          rw [ih g2 rest (by omega) (by omega)]

theorem subst_of_matchAt_some {r : Rule} {s cap rest : Text}
    (h : matchAt r s = some (cap, rest)) :
    subst r s = r.rpre ++ cap ++ r.rpost ++ subst r rest := by
  cases s with
  | nil => rw [matchAt_nil] at h; exact absurd h (by simp)
  | cons c cs =>
    have hlt := matchAt_rest_length h
    simp only [List.length_cons] at hlt
    unfold subst
    simp only [List.length_cons, substF, h]
    rw [substF_congr r cs.length rest.length rest (by omega) (le_refl _)]

theorem subst_of_matchAt_none {r : Rule} {c : Char} {cs : Text}
    (h : matchAt r (c :: cs) = none) :
    subst r (c :: cs) = c :: subst r cs := by
  unfold subst
  simp only [List.length_cons, substF, h]

end FixFindObject

namespace FixFindObject

theorem matchAt_none_of_not_pre {r : Rule} {s : Text}
    (h : ∀ t, s ≠ r.pre ++ t) : matchAt r s = none := by
  unfold matchAt
  rcases ht : dropPre r.pre s with _ | t
  · rfl
  · rw [dropPre_iff] at ht
    exact absurd ht (h t)

theorem subst_id_of_no_match (r : Rule) :
    ∀ s : Text, (∀ i : Nat, matchAt r (s.drop i) = none) → subst r s = s := by
  intro s
  induction s with
  | nil => intro _; rfl
  | cons c cs ih =>
    intro h
    have h0 := h 0
    rw [List.drop_zero] at h0
    rw [subst_of_matchAt_none h0]
    exact congrArg (c :: ·) (ih fun i => h (i + 1))

theorem containsSeq_false_drop {p : Text} :
    ∀ s : Text, containsSeq p s = false → ∀ (i : Nat) (t : Text), s.drop i ≠ p ++ t := by
  intro s
  induction s with
  | nil =>
    intro h i t heq
    rw [List.drop_nil] at heq
    rcases p with _ | ⟨a, q⟩
    · simp [containsSeq] at h
    · exact absurd heq (by simp)
  | cons c cs ih =>
    intro h i t heq
    rw [containsSeq, Bool.or_eq_false_iff] at h
    cases i with
    | zero =>
      rw [List.drop_zero] at heq
      have : p.isPrefixOf (c :: cs) = true := by
        rw [heq, List.isPrefixOf_iff_prefix]
        exact ⟨t, rfl⟩
      rw [this] at h
      exact absurd h.1 (by simp)
    | succ j =>
      exact ih h.2 j t heq

theorem no_pre_of_containsSeq_false {name pre' : Text} (hnp : name <+: pre')
    {s : Text} (h : containsSeq name s = false) (i : Nat) :
    ∀ t, s.drop i ≠ pre' ++ t := by
  intro t heq
  obtain ⟨u, hu⟩ := hnp
  exact containsSeq_false_drop s h i (u ++ t)
    (by rw [heq, ← hu, List.append_assoc])

theorem applyRules_id {rs : List Rule} {t : Text}
    (h : ∀ r ∈ rs, subst r t = t) : applyRules rs t = (t, 0) := by
  induction rs with
  | nil => rfl
  | cons r rs ih =>
    have h0 : subst r t = t := h r (by simp)
    simp only [applyRules, h0, ne_eq, not_true_eq_false, if_false]
    rw [ih fun q hq => h q (by simp [hq])]
    rfl

end FixFindObject

namespace FixFindObject

/-- C1: for each of the seven rule forms, the rewriter maps the minimal
input containing exactly one occurrence of the deprecated form to
exactly the documented modern form. -/
theorem claim1_seven_rule_forms :
    fixText "FindObjectOfType<Foo>()".toList
      = "FindFirstObjectByType<Foo>()".toList ∧
    fixText "FindObjectOfType<Foo>(true)".toList
      = "FindFirstObjectByType<Foo>(FindObjectsInactive.Include)".toList ∧
    fixText "FindObjectOfType<Foo>(false)".toList
      = "FindFirstObjectByType<Foo>()".toList ∧
    fixText "FindObjectOfType(typeof(Foo))".toList
      = "FindFirstObjectByType(typeof(Foo))".toList ∧
    fixText "FindObjectsOfType<Bar>()".toList
      = "FindObjectsByType<Bar>(FindObjectsSortMode.None)".toList ∧
    fixText "FindObjectsOfType<Bar>(true)".toList
      = "FindObjectsByType<Bar>(FindObjectsInactive.Include, FindObjectsSortMode.None)".toList ∧
    fixText "FindObjectsOfType<Bar>(false)".toList
      = "FindObjectsByType<Bar>(FindObjectsSortMode.None)".toList :=
  ⟨rfl, rfl, rfl, rfl, rfl, rfl, rfl⟩

/-- C3 counterexample: on `FindObjectOfType<List<Foo>>()` the rewriter
does not produce any rewritten output at all — the text is returned
unchanged, contradicting the claimed truncated-capture rewrite. -/
theorem claim3_counterexample :
    fixText "FindObjectOfType<List<Foo>>()".toList
      = "FindObjectOfType<List<Foo>>()".toList := rfl

/-- C3 (amended): on a nested generic type argument the capture class
`[^>]+` stops at the first `>`, and the pattern then requires `(` where
the second `>` stands, so the matching expression of the zero-argument
generic rule does not match at any position of
`FindObjectOfType<List<Foo>>()` (length 29) and the input is returned
unchanged, with a zero replacement count. -/
theorem claim3_nested_generic_unmatched :
    (∀ i : Fin 30, matchAt rule1 ("FindObjectOfType<List<Foo>>()".toList.drop i.val) = none) ∧
    applyRules RULES "FindObjectOfType<List<Foo>>()".toList
      = ("FindObjectOfType<List<Foo>>()".toList, 0) := by
  constructor
  · decide
  · rfl

/-- C5 counterexample: the rewriter is not idempotent.  On
`FindObjectOfType<FindObjectOfType<A>()>(true)` the first full
application leaves `FindFirstObjectByType<FindObjectOfType<A>()>(true)`,
which the zero-argument generic rule rewrites again on a second full
application. -/
theorem claim5_counterexample :
    fixText (fixText "FindObjectOfType<FindObjectOfType<A>()>(true)".toList)
      ≠ fixText "FindObjectOfType<FindObjectOfType<A>()>(true)".toList := by
  decide

/-- C5 (amended): on text in which neither construct name
`FindObjectOfType` nor `FindObjectsOfType` occurs — in particular text
that already uses only the modern names — the rewriter is the identity,
and hence a second application changes nothing. -/
theorem claim5_modern_text_unchanged (s : Text)
    (h1 : containsSeq "FindObjectOfType".toList s = false)
    (h2 : containsSeq "FindObjectsOfType".toList s = false) :
    fixText s = s ∧ fixText (fixText s) = fixText s := by
  have hid : ∀ r ∈ RULES, subst r s = s := by
    intro r hr
    apply subst_id_of_no_match
    intro i
    apply matchAt_none_of_not_pre
    fin_cases hr
    · exact no_pre_of_containsSeq_false (by decide) h1 i
    · exact no_pre_of_containsSeq_false (by decide) h1 i
    · exact no_pre_of_containsSeq_false (by decide) h1 i
    · exact no_pre_of_containsSeq_false (by decide) h1 i
    · exact no_pre_of_containsSeq_false (by decide) h2 i
    · exact no_pre_of_containsSeq_false (by decide) h2 i
    · exact no_pre_of_containsSeq_false (by decide) h2 i
  have hfix : fixText s = s := by
    unfold fixText
    rw [applyRules_id hid]
  exact ⟨hfix, by rw [hfix, hfix]⟩

/-- C5 witness: the amended theorem applied to a concrete modern-form
text. -/
theorem claim5_witness :
    fixText "FindFirstObjectByType<Foo>()".toList = "FindFirstObjectByType<Foo>()".toList ∧
    fixText (fixText "FindFirstObjectByType<Foo>()".toList)
      = fixText "FindFirstObjectByType<Foo>()".toList :=
  claim5_modern_text_unchanged _ (by decide) (by decide)

/-- C2 counterexample: a run over one file whose text is rewritten
(the final text differs from the original, so its change flag is true)
but whose reported count is `0`: the summary says `filesModified = 0`
and `totalChanges = 0`, not `filesModified = 1`. -/
theorem claim2_counterexample :
    fixText "FindObjectOfType<Foo>()".toList ≠ "FindObjectOfType<Foo>()".toList ∧
    runSummary [("Assets/A.cs", Except.ok "FindObjectOfType<Foo>()".toList)] = (0, 0) := by
  constructor
  · decide
  · rfl

/-- C9 counterexample: two distinct rules match overlapping spans of
`FindObjectOfType<FindObjectsOfType<A>()` (length 39): the singular
zero-argument rule matches the whole text (span `[0, 39)`) and the
plural zero-argument rule matches at position 17 (span `[17, 39)`). -/
theorem claim9_counterexample :
    matchSpan rule1 "FindObjectOfType<FindObjectsOfType<A>()".toList 0 = some 39 ∧
    matchSpan rule5 "FindObjectOfType<FindObjectsOfType<A>()".toList 17 = some 22 ∧
    rule1 ≠ rule5 ∧ (17 : Nat) < 0 + 39 ∧ (0 : Nat) < 17 + 22 := by
  refine ⟨rfl, rfl, by decide, by decide, by decide⟩

end FixFindObject

namespace FixFindObject

theorem prefix_total_of_append :
    ∀ {a : Text} {b u v : Text}, a ++ u = b ++ v → a <+: b ∨ b <+: a := by
  intro a
  induction a with
  | nil => intro b u v _; exact Or.inl ⟨b, rfl⟩
  | cons x xs ih =>
    intro b u v h
    cases b with
    | nil => exact Or.inr ⟨x :: xs, rfl⟩
    | cons y ys =>
      simp only [List.cons_append, List.cons_eq_cons] at h
      obtain ⟨hxy, ht⟩ := h
      subst hxy
      rcases ih ht with h | h
      · exact Or.inl (by rw [List.cons_prefix_cons]; exact ⟨rfl, h⟩)
      · exact Or.inr (by rw [List.cons_prefix_cons]; exact ⟨rfl, h⟩)

theorem matchAt_pre_prefix {r : Rule} {s : Text} (h : matchAt r s ≠ none) :
    r.pre <+: s := by
  unfold matchAt at h
  rcases ht : dropPre r.pre s with _ | t
  · rw [ht] at h; exact absurd rfl h
  · rw [dropPre_iff] at ht
    exact ⟨t, ht.symm⟩

/-- Two rules whose literal prefixes are incomparable, or which share
their literal prefix and excluded character but have incomparable
literal tails, can never both match at the start of the same text. -/
theorem matchAt_exclusive {r1 r2 : Rule}
    (hc : (¬ r1.pre <+: r2.pre ∧ ¬ r2.pre <+: r1.pre) ∨
      (r1.pre = r2.pre ∧ r1.excl = r2.excl ∧
        ¬ r1.post <+: r2.post ∧ ¬ r2.post <+: r1.post))
    {s : Text} : matchAt r1 s = none ∨ matchAt r2 s = none := by
  by_contra hb
  push_neg at hb
  obtain ⟨h1, h2⟩ := hb
  rcases hc with ⟨hp1, hp2⟩ | ⟨hpre, hexcl, hq1, hq2⟩
  · obtain ⟨u, hu⟩ := matchAt_pre_prefix h1
    obtain ⟨v, hv⟩ := matchAt_pre_prefix h2
    rcases prefix_total_of_append (hu.trans hv.symm) with h | h
    · exact hp1 h
    · exact hp2 h
  · unfold matchAt at h1 h2
    rcases ht : dropPre r1.pre s with _ | t
    · rw [ht] at h1; exact h1 rfl
    · rw [ht] at h1
      simp only at h1
      rw [hpre] at ht
      rw [ht] at h2
      simp only at h2
      simp only [hexcl] at h1
      by_cases he : (t.takeWhile (fun c => c ≠ r2.excl)).isEmpty
      · rw [if_pos he] at h1; exact h1 rfl
      · rw [if_neg he] at h1
        rw [if_neg he] at h2
        rcases hd1 : dropPre r1.post (t.dropWhile (fun c => c ≠ r2.excl)) with _ | rest1
        · rw [hd1] at h1; exact h1 rfl
        · rcases hd2 : dropPre r2.post (t.dropWhile (fun c => c ≠ r2.excl)) with _ | rest2
          · rw [hd2] at h2; exact h2 rfl
          · rw [dropPre_iff] at hd1 hd2
            rcases prefix_total_of_append (hd1.symm.trans hd2) with h | h
            · exact hq1 h
            · exact hq2 h

/-- C9 (amended): the seven rules are mutually exclusive at any single
starting position: if two rules both match at the start of the same
text, they are the same rule.  (Matches of distinct rules starting at
different positions can still overlap, per the counterexample.) -/
theorem claim9_no_same_position_overlap :
    ∀ r1 ∈ RULES, ∀ r2 ∈ RULES, ∀ s : Text,
      matchAt r1 s ≠ none → matchAt r2 s ≠ none → r1 = r2 := by
  intro r1 h1 r2 h2 s hm1 hm2
  fin_cases h1 <;> fin_cases h2 <;>
    first
      | rfl
      | exact ((matchAt_exclusive (by decide)).elim
          (fun h => absurd h hm1) (fun h => absurd h hm2))

/-- C9 witness: the amended theorem applied at a concrete matching
text for the first rule. -/
theorem claim9_witness : rule1 = rule1 :=
  claim9_no_same_position_overlap rule1 (by decide) rule1 (by decide)
    "FindObjectOfType<A>()".toList (by decide) (by decide)

end FixFindObject

namespace FixFindObject

theorem applyRules_fst_cons (r : Rule) (rs : List Rule) (t : Text) :
    (applyRules (r :: rs) t).1 = (applyRules rs (subst r t)).1 := rfl

/-- C6: the rewriter applies the seven rules in table order, each
rule's pattern running over the output of the previous rule; and each
single-rule substitution replaces every non-overlapping leftmost
match: scanning left to right, whenever the pattern matches at the
current position the match is replaced and scanning resumes right
after the replaced text (never inside it), otherwise scanning advances
one character. -/
theorem claim6_order_and_global_substitution :
    (∀ t : Text, fixText t
      = subst rule7 (subst rule6 (subst rule5 (subst rule4
          (subst rule3 (subst rule2 (subst rule1 t))))))) ∧
    (∀ (r : Rule) (s cap rest : Text), matchAt r s = some (cap, rest) →
      subst r s = r.rpre ++ cap ++ r.rpost ++ subst r rest) ∧
    (∀ (r : Rule) (c : Char) (cs : Text), matchAt r (c :: cs) = none →
      subst r (c :: cs) = c :: subst r cs) := by
  refine ⟨?_, fun r s cap rest h => subst_of_matchAt_some h,
    fun r c cs h => subst_of_matchAt_none h⟩
  intro t
  simp only [fixText, RULES, applyRules_fst_cons]
  rfl

set_option maxHeartbeats 1000000 in
/-- C6 witness: the characterisation applied at concrete inputs — a
match at the current position is replaced and scanning resumes after
it, and a non-match advances one character. -/
theorem claim6_witness :
    subst rule1 "FindObjectOfType<A>()x".toList
      = rule1.rpre ++ "A".toList ++ rule1.rpost ++ subst rule1 "x".toList ∧
    subst rule5 "xFindObjectsOfType<B>()".toList
      = 'x' :: subst rule5 "FindObjectsOfType<B>()".toList :=
  ⟨claim6_order_and_global_substitution.2.1 rule1 _ "A".toList "x".toList (by decide),
   claim6_order_and_global_substitution.2.2 rule5 'x' _ (by decide)⟩

/-- C10: the per-file operation is error-atomic: on a read-side or
decoding error no write at all is performed, and on a successful read
the (single, whole-file) write is performed only after the whole
transformation has run and only when it produced text differing from
the original. -/
theorem claim10_error_atomicity :
    (∀ p e : String, (fixFile p (Except.error e)).written = []) ∧
    (∀ (p : String) (content : Text),
      (fixFile p (Except.ok content)).written
        = if fixText content ≠ content then [fixText content] else []) := by
  refine ⟨fun p e => rfl, fun p content => ?_⟩
  by_cases h : (applyRules RULES content).1 = content <;>
    simp [fixFile, fixText, h]

/-- C8: every per-file read error is caught inside the per-file
operation: `fix_file` reports it with the file path and underlying
message, writes nothing, and returns zero changes; and in a run such a
file contributes nothing to the summary while all other files, before
and after it, are still processed exactly as they would be without
it. -/
theorem claim8_per_file_errors_isolated :
    (∀ p e : String,
      fixFile p (Except.error e) = { written := [], count := 0, errors := [(p, e)] }) ∧
    (∀ (files1 files2 : List (String × Except String Text)) (p e : String),
      runSummary (files1 ++ (p, Except.error e) :: files2) = runSummary (files1 ++ files2) ∧
      runReports (files1 ++ (p, Except.error e) :: files2)
        = runReports files1 ++ (p, e) :: runReports files2) := by
  constructor
  · intro p e
    rfl
  · intro files1 files2 p e
    induction files1 with
    | nil => exact ⟨rfl, rfl⟩
    | cons f fs ih =>
      constructor
      · simp only [List.cons_append, runSummary, List.append_eq, ih.1]
      · simp only [List.cons_append, runReports, List.append_eq, ih.2, List.append_assoc]

end FixFindObject

namespace FixFindObject

set_option maxRecDepth 8192 in
/-- C7: a file matched by no rule is returned byte-identical with a
false change flag and is not written back; and a file with several
matching occurrences, possibly of different rule forms, has all of
them replaced and is written back exactly once (a single write of the
final text, never one write per match) — demonstrated on a file with
three occurrences of three different rule forms. -/
theorem claim7_frame_and_single_write :
    (∀ (p : String) (content : Text), (∀ r ∈ RULES, subst r content = content) →
      fixText content = content ∧ (fixFile p (Except.ok content)).written = []) ∧
    (∀ (p : String) (content : Text), fixText content ≠ content →
      (fixFile p (Except.ok content)).written = [fixText content]) ∧
    (fixText "FindObjectOfType<A>() FindObjectsOfType<B>(true) FindObjectOfType(typeof(C))".toList
      = "FindFirstObjectByType<A>() FindObjectsByType<B>(FindObjectsInactive.Include, FindObjectsSortMode.None) FindFirstObjectByType(typeof(C))".toList ∧
    (fixFile "Assets/Demo.cs"
        (Except.ok "FindObjectOfType<A>() FindObjectsOfType<B>(true) FindObjectOfType(typeof(C))".toList)).written
      = ["FindFirstObjectByType<A>() FindObjectsByType<B>(FindObjectsInactive.Include, FindObjectsSortMode.None) FindFirstObjectByType(typeof(C))".toList]) := by
  refine ⟨?_, ?_, rfl, rfl⟩
  · intro p content h
    have hid := applyRules_id h
    constructor
    · unfold fixText
      rw [hid]
    · simp [fixFile, hid]
  · intro p content h
    have h' : ¬ (applyRules RULES content).1 = content := h
    simp [fixFile, fixText, h']

/-- C7 witness: the universal parts applied at concrete files — an
unmatched file is unchanged and unwritten; a changed file's single
write carries the rewritten text. -/
theorem claim7_witness :
    (fixText "int x = 1;".toList = "int x = 1;".toList ∧
      (fixFile "Assets/N.cs" (Except.ok "int x = 1;".toList)).written = []) ∧
    (fixFile "Assets/M.cs" (Except.ok "FindObjectOfType<Foo>()".toList)).written
      = [fixText "FindObjectOfType<Foo>()".toList] :=
  ⟨claim7_frame_and_single_write.1 "Assets/N.cs" _ (by decide),
   claim7_frame_and_single_write.2.1 "Assets/M.cs" _ (by decide)⟩

/-- C2 (amended): `filesModified` equals the number of files whose
reported per-file count is positive (not, as claimed, the number whose
text changed — see the counterexample), `totalChanges` equals the sum
of the per-file counts, and both are zero when no file's text matches
any rule. -/
theorem claim2_summary_arithmetic :
    (∀ files : List (String × Except String Text),
      (runSummary files).1
          = (files.filter (fun f => 0 < (fixFile f.1 f.2).count)).length ∧
      (runSummary files).2
          = (files.map (fun f => (fixFile f.1 f.2).count)).sum) ∧
    (∀ files : List (String × Except String Text),
      (∀ f ∈ files, ∀ r ∈ RULES, subst r (readOk f.2) = readOk f.2) →
      runSummary files = (0, 0)) := by
  constructor
  · intro files
    induction files with
    | nil => exact ⟨rfl, rfl⟩
    | cons f fs ih =>
      by_cases h : 0 < (fixFile f.1 f.2).count
      · constructor
        · simp [runSummary, List.filter_cons, h, ih.1]
        · simp [runSummary, List.map_cons, List.sum_cons, h, ih.2]
          omega
      · have h0 : (fixFile f.1 f.2).count = 0 := by omega
        constructor
        · simp [runSummary, List.filter_cons, h, ih.1]
        · simp [runSummary, List.map_cons, List.sum_cons, h, h0, ih.2]
  · intro files h
    have hc : ∀ f ∈ files, (fixFile f.1 f.2).count = 0 := by
      intro f hf
      rcases hr : f.2 with e | content
      · simp [fixFile, hr]
      · have hok : readOk f.2 = content := by rw [hr]; rfl
        have hid := applyRules_id (fun r hrr => by
          have := h f hf r hrr
          rwa [hok] at this)
        simp [fixFile, hr, hid]
    induction files with
    | nil => rfl
    | cons f fs ih =>
      have h0 := hc f (by simp)
      simp only [runSummary, h0, Nat.lt_irrefl, if_false]
      exact ih (fun g hg => h g (by simp [hg])) (fun g hg => hc g (by simp [hg]))

/-- C2 witness: the amended theorem's zero case applied to a concrete
run in which no file matches any rule. -/
theorem claim2_witness :
    runSummary [("Assets/A.cs", Except.ok "int x = 1;".toList)] = (0, 0) :=
  claim2_summary_arithmetic.2 _ (by decide)

end FixFindObject

namespace FixFindObject

theorem not_prefix_append {a b w : Text} (h1 : ¬ a <+: b) (h2 : ¬ b <+: a) :
    ¬ a <+: b ++ w := by
  intro h
  obtain ⟨u, hu⟩ := h
  rcases prefix_total_of_append hu with h | h
  · exact h1 h
  · exact h2 h

theorem matchAt_none_A1 {r : Rule} {d : Text}
    (h1 : ¬ r.pre <+: d) (h2 : ¬ d <+: r.pre) {s : Text} (hd : d <+: s) :
    matchAt r s = none := by
  rcases hm : matchAt r s with _ | pr
  · rfl
  · exfalso
    have hp : r.pre <+: s := matchAt_pre_prefix (by rw [hm]; simp)
    obtain ⟨u, hu⟩ := hp
    obtain ⟨v, hv⟩ := hd
    rcases prefix_total_of_append (hu.trans hv.symm) with h | h
    · exact h1 h
    · exact h2 h

theorem matchAt_none_A2 {r : Rule} {d : Text}
    (hpre : r.pre <+: d)
    (hd5 : ('(' :: '[' :: '^' :: r.excl :: ']' :: []) <+: d.drop r.pre.length)
    (hops : ('(' : Char) ≠ r.excl ∧ ('[' : Char) ≠ r.excl ∧ ('^' : Char) ≠ r.excl)
    (hpost : r.post.get? 0 = some r.excl ∧ r.post.get? 1 ≠ some ']' ∧ 2 ≤ r.post.length)
    {s : Text} (hd : d <+: s) :
    matchAt r s = none := by
  obtain ⟨e1, e2, e3⟩ := hops
  have hpre_s : r.pre <+: s := hpre.trans hd
  obtain ⟨t, ht⟩ := hpre_s
  have hdp : dropPre r.pre s = some t := (dropPre_iff _ _ _).2 ht.symm
  have hdt : d.drop r.pre.length <+: t := by
    obtain ⟨v, hv⟩ := hd
    obtain ⟨w, hw⟩ := hpre
    refine ⟨v, ?_⟩
    have h1 : d.drop r.pre.length = w := by
      rw [← hw, List.drop_left]
    have h2 : t = w ++ v := by
      have : r.pre ++ t = (r.pre ++ w) ++ v := by rw [hw, hv, ht]
      rw [List.append_assoc] at this
      exact List.append_cancel_left this
    rw [h1, h2]
  have h5t : ('(' :: '[' :: '^' :: r.excl :: ']' :: []) <+: t := hd5.trans hdt
  obtain ⟨t', ht'⟩ := h5t
  have htw : List.takeWhile (fun c => decide (c ≠ r.excl))
      ('(' :: '[' :: '^' :: r.excl :: ']' :: t') = ['(', '[', '^'] := by
    simp [List.takeWhile_cons, e1, e2, e3]
  have hdw : List.dropWhile (fun c => decide (c ≠ r.excl))
      ('(' :: '[' :: '^' :: r.excl :: ']' :: t') = r.excl :: ']' :: t' := by
    simp [List.dropWhile_cons, e1, e2, e3]
  rcases hp : r.post with _ | ⟨a, pr⟩
  · rw [hp] at hpost
    simp at hpost
  · rcases hq : pr with _ | ⟨b, pw⟩
    · rw [hp, hq] at hpost
      simp at hpost
    · rw [hp, hq] at hpost
      obtain ⟨ha, hb, -⟩ := hpost
      simp only [List.get?] at ha hb
      have ha' : a = r.excl := by injection ha
      have hb' : b ≠ ']' := fun hbe => hb (by rw [hbe])
      subst ha'
      have hnone : dropPre r.post (r.excl :: ']' :: t') = none := by
        rw [hp, hq]
        show (if r.excl = r.excl then dropPre (b :: pw) (']' :: t') else none) = none
        rw [if_pos rfl]
        show (if (']' : Char) = b then dropPre pw t' else none) = none
        rw [if_neg (fun h => hb' h.symm)]
      unfold matchAt
      rw [hdp]
      simp only
      rw [← ht']
      simp only [List.cons_append, List.nil_append, htw, hdw, hnone]
      simp

end FixFindObject

namespace FixFindObject

/-- A match of one of the seven rules can never begin at a position
where one of the seven de-escaped pattern strings occurs: either the
rule's literal prefix is incompatible with the string, or the capture
group stops inside the string's `([^X]+)` fragment and the rule's
literal tail then fails on the `]`. -/
theorem matchAt_none_of_occ :
    ∀ r ∈ RULES, ∀ d ∈ DS, ∀ s : Text, d <+: s → matchAt r s = none := by
  intro r hr d hd s hds
  fin_cases hr <;> fin_cases hd <;>
    first
      | exact matchAt_none_A1 (by decide) (by decide) hds
      | exact matchAt_none_A2 (by decide) (by decide) (by decide) (by decide) hds

end FixFindObject

namespace FixFindObject

/-- A text containing no `F` that is a prefix of `u` is also a prefix
of `subst r u`: every replacement the scan makes starts with the `F`
of the rule's literal prefix, which an `F`-free prefix cannot reach. -/
theorem prefix_subst_of_prefix {r : Rule} (hpreF : r.pre.head? = some 'F') :
    ∀ (u v : Text), 'F' ∉ v → v <+: u → v <+: subst r u := by
  intro u
  induction u with
  | nil => intro v _ h; exact h
  | cons c cs ih =>
    intro v hF hv
    rcases hm : matchAt r (c :: cs) with _ | ⟨cap, rest⟩
    · rw [subst_of_matchAt_none hm]
      cases v with
      | nil => exact List.nil_prefix
      | cons x v' =>
        rw [List.cons_prefix_cons] at hv ⊢
        exact ⟨hv.1, ih v' (fun hm' => hF (List.mem_cons_of_mem _ hm')) hv.2⟩
    · cases v with
      | nil => exact List.nil_prefix
      | cons x v' =>
        exfalso
        obtain ⟨hs, -, -⟩ := matchAt_some hm
        rcases hpre : r.pre with _ | ⟨p0, pre'⟩
        · rw [hpre] at hpreF
          simp at hpreF
        · rw [hpre] at hpreF
          have hp0 : p0 = 'F' := by simpa using hpreF
          rw [hpre, hp0] at hs
          simp only [List.cons_append, List.cons_eq_cons] at hs
          rw [List.cons_prefix_cons] at hv
          apply hF
          rw [hv.1, hs.1]
          exact List.mem_cons_self _ _

/-- Conversely, an `F`-free prefix of `subst r u` is a prefix of `u`:
the first character of any emitted replacement is the `F` of the
template's literal prefix. -/
theorem prefix_of_prefix_subst {r : Rule} (hrpreF : r.rpre.head? = some 'F') :
    ∀ (u v : Text), 'F' ∉ v → v <+: subst r u → v <+: u := by
  intro u
  induction u with
  | nil => intro v _ h; exact h
  | cons c cs ih =>
    intro v hF hv
    rcases hm : matchAt r (c :: cs) with _ | ⟨cap, rest⟩
    · rw [subst_of_matchAt_none hm] at hv
      cases v with
      | nil => exact List.nil_prefix
      | cons x v' =>
        rw [List.cons_prefix_cons] at hv ⊢
        exact ⟨hv.1, ih v' (fun hm' => hF (List.mem_cons_of_mem _ hm')) hv.2⟩
    · cases v with
      | nil => exact List.nil_prefix
      | cons x v' =>
        exfalso
        rw [subst_of_matchAt_some hm] at hv
        rcases hr : r.rpre with _ | ⟨p0, rpre'⟩
        · rw [hr] at hrpreF
          simp at hrpreF
        · rw [hr] at hrpreF
          have hp0 : p0 = 'F' := by simpa using hrpreF
          rw [hr, hp0] at hv
          simp only [List.cons_append] at hv
          rw [List.cons_prefix_cons] at hv
          apply hF
          rw [hv.1]
          exact List.mem_cons_self _ _

theorem occCount_cons (d : Text) (c : Char) (cs : Text) :
    occCount d (c :: cs) = (if d <+: (c :: cs) then 1 else 0) + occCount d cs := by
  rw [occCount]
  congr 1
  by_cases h : d <+: c :: cs
  · rw [if_pos (by rwa [List.isPrefixOf_iff_prefix]), if_pos h]
  · rw [if_neg (fun hb => h (by rwa [List.isPrefixOf_iff_prefix] at hb)), if_neg h]

theorem occCount_eq_drop {d : Text} :
    ∀ (k : Nat) (s : Text), (∀ i, i < k → ¬ d <+: s.drop i) →
      occCount d s = occCount d (s.drop k) := by
  intro k
  induction k with
  | zero => intro s _; rw [List.drop_zero]
  | succ n ih =>
    intro s h
    cases s with
    | nil => simp [List.drop_nil]
    | cons c cs =>
      have h0 : ¬ d <+: c :: cs := by
        have := h 0 (by omega)
        rwa [List.drop_zero] at this
      rw [occCount_cons, if_neg h0, Nat.zero_add]
      have : (c :: cs).drop (n + 1) = cs.drop n := rfl
      rw [this]
      exact ih cs (fun i hi => h (i + 1) (by omega))

theorem prefix_append_iff_of_le {d w v : Text} (h : d.length ≤ w.length) :
    d <+: w ++ v ↔ d <+: w := by
  constructor
  · intro hp
    obtain ⟨u, hu⟩ := hp
    rcases prefix_total_of_append hu with h1 | h1
    · exact h1
    · have h2 := List.IsPrefix.length_le h1
      have heq : w = d := List.IsPrefix.eq_of_length h1 (by omega)
      rw [heq]
  · intro h1
    exact h1.trans (List.prefix_append w v)

theorem occCount_append_of_inner (d L2 u : Text) :
    ∀ cap : Text,
      (∀ o, o < cap.length → cap.length < o + d.length →
        ¬ d <+: cap.drop o ++ (L2 ++ u)) →
      occCount d (cap ++ (L2 ++ u)) = occCount d cap + occCount d (L2 ++ u) := by
  intro cap
  induction cap with
  | nil => intro _; simp [occCount]
  | cons c cap' ih =>
    intro h3
    rw [List.cons_append, occCount_cons, occCount_cons d c cap']
    have hrec := ih (fun o ho hlen => by
      have := h3 (o + 1) (by simpa using Nat.succ_lt_succ ho)
        (by simp only [List.length_cons]; omega)
      simpa using this)
    rw [hrec]
    by_cases hfit : d.length ≤ cap'.length + 1
    · have hiff : (d <+: c :: (cap' ++ (L2 ++ u))) ↔ d <+: c :: cap' := by
        have := prefix_append_iff_of_le (d := d) (w := c :: cap') (v := L2 ++ u)
          (by simpa using hfit)
        simpa using this
      by_cases hd : d <+: c :: cap'
      · rw [if_pos (hiff.2 hd), if_pos hd]
        omega
      · rw [if_neg (fun hx => hd (hiff.1 hx)), if_neg hd]
        omega
    · have hno : ¬ d <+: c :: (cap' ++ (L2 ++ u)) := by
        have := h3 0 (by simp) (by simp only [List.length_cons]; omega)
        simpa using this
      have hno2 : ¬ d <+: c :: cap' := fun hx => by
        have := List.IsPrefix.length_le hx
        simp only [List.length_cons] at this
        omega
      rw [if_neg hno, if_neg hno2]
      omega

/-- The occurrence count of `d` in `L1 ++ cap ++ L2 ++ u` when no
occurrence of `d` can start inside `L1` or `L2` or cross out of `cap`:
only the occurrences inside the capture and inside the tail remain. -/
theorem occCount_K {d : Text} (L1 cap L2 u : Text)
    (h1 : ∀ o, o < L1.length → ¬ d <+: (L1 ++ (cap ++ (L2 ++ u))).drop o)
    (h2 : ∀ o, o < L2.length → ¬ d <+: (L2 ++ u).drop o)
    (h3 : ∀ o, o < cap.length → cap.length < o + d.length →
      ¬ d <+: cap.drop o ++ (L2 ++ u)) :
    occCount d (L1 ++ (cap ++ (L2 ++ u))) = occCount d cap + occCount d u := by
  have s1 : occCount d (L1 ++ (cap ++ (L2 ++ u))) = occCount d (cap ++ (L2 ++ u)) := by
    rw [occCount_eq_drop L1.length _ h1, List.drop_left]
  have s3 : occCount d (L2 ++ u) = occCount d u := by
    rw [occCount_eq_drop L2.length _ h2, List.drop_left]
  rw [s1, occCount_append_of_inner d L2 u cap h3, s3]

end FixFindObject

namespace FixFindObject

/-- An occurrence of `d` cannot start inside the capture and extend
past its end: the character of `d` at the capture boundary would have
to be the excluded character (the literal that follows starts with
it), and from `d`'s first excluded-character position on, `d` and that
literal diverge while still inside the literal. -/
theorem cross_refute {d cap L2 u : Text} {excl : Char}
    (hcap : ∀ c ∈ cap, c ≠ excl)
    (hcross : ∀ m : Fin d.length, (∀ c ∈ d.take m.val, c ≠ excl) →
      (¬ d.drop m.val <+: L2 ∧ ¬ L2 <+: d.drop m.val))
    {o : Nat} (ho : o < cap.length) (hlen : cap.length < o + d.length) :
    ¬ d <+: cap.drop o ++ (L2 ++ u) := by
  intro h
  obtain ⟨w, hw⟩ := h
  have hcapo_len : (cap.drop o).length = cap.length - o := by
    simp [List.length_drop]
  have hcapo : cap.drop o <+: d := by
    rcases prefix_total_of_append hw with h1 | h1
    · exfalso
      have := List.IsPrefix.length_le h1
      rw [hcapo_len] at this
      omega
    · exact h1
  obtain ⟨d', hd'⟩ := hcapo
  have hd'_eq : d' = d.drop (cap.drop o).length := by
    rw [← hd', List.drop_left]
  have hsplit : d' <+: L2 ++ u := by
    refine ⟨w, ?_⟩
    have hx : cap.drop o ++ (d' ++ w) = cap.drop o ++ (L2 ++ u) := by
      rw [← List.append_assoc, hd', hw]
    exact List.append_cancel_left hx
  have hm_lt : (cap.drop o).length < d.length := by
    rw [hcapo_len]; omega
  have htake : d.take (cap.drop o).length = cap.drop o := by
    rw [← hd', List.take_left]
  have hmem : ∀ c ∈ d.take (cap.drop o).length, c ≠ excl := by
    rw [htake]
    intro c hc
    exact hcap c (List.drop_subset o cap hc)
  have hinc := hcross ⟨(cap.drop o).length, hm_lt⟩ hmem
  rw [hd'_eq] at hsplit
  exact not_prefix_append hinc.1 hinc.2 hsplit

/-- Core preservation theorem: under the `Compat` side conditions and
the fact that no match can begin at an occurrence of `d`, one rule's
substitution preserves the number of occurrences of `d`. -/
theorem occCount_subst_gen {r : Rule} {d : Text}
    (hA : ∀ s : Text, d <+: s → matchAt r s = none)
    (hC : Compat r d) :
    ∀ (n : Nat) (t : Text), t.length ≤ n →
      occCount d (subst r t) = occCount d t := by
  obtain ⟨hdF, hdtail, hpreF, hrpreF, hpre2, hpost2, hrpre2, hrpost2, hcross⟩ := hC
  intro n
  induction n with
  | zero =>
    intro t ht
    have : t = [] := List.length_eq_zero.1 (Nat.le_zero.1 ht)
    subst this
    rfl
  | succ n ih =>
    intro t ht
    cases t with
    | nil => rfl
    | cons c cs =>
      rcases hm : matchAt r (c :: cs) with _ | ⟨cap, rest⟩
      · rw [subst_of_matchAt_none hm, occCount_cons, occCount_cons]
        have hrec : occCount d (subst r cs) = occCount d cs :=
          ih cs (by simp only [List.length_cons] at ht; omega)
        rw [hrec]
        have hiff : (d <+: c :: subst r cs) ↔ (d <+: c :: cs) := by
          rcases hd0 : d with _ | ⟨d0, dt⟩
          · simp
          · have hFfree : 'F' ∉ dt := by
              intro hmem
              exact hdtail 'F' (by rw [hd0]; exact hmem) rfl
            constructor
            · intro hx
              rw [List.cons_prefix_cons] at hx ⊢
              exact ⟨hx.1, prefix_of_prefix_subst hrpreF cs dt hFfree hx.2⟩
            · intro hx
              rw [List.cons_prefix_cons] at hx ⊢
              exact ⟨hx.1, prefix_subst_of_prefix hpreF cs dt hFfree hx.2⟩
        simp only [hiff]
      · obtain ⟨hs, hcapne, hcapmem⟩ := matchAt_some hm
        have hs' : (c :: cs : Text) = r.pre ++ (cap ++ (r.post ++ rest)) := by
          rw [hs]
          simp [List.append_assoc]
        have hsub' : subst r (c :: cs)
            = r.rpre ++ (cap ++ (r.rpost ++ subst r rest)) := by
          rw [subst_of_matchAt_some hm]
          simp [List.append_assoc]
        have hrest_len := matchAt_rest_length hm
        have hrec : occCount d (subst r rest) = occCount d rest := by
          apply ih rest
          simp only [List.length_cons] at ht hrest_len
          omega
        have hnew : occCount d (r.rpre ++ (cap ++ (r.rpost ++ subst r rest)))
            = occCount d cap + occCount d (subst r rest) := by
          apply occCount_K
          · intro o ho
            rw [List.drop_append_of_le_length (by omega)]
            exact not_prefix_append (hrpre2 ⟨o, ho⟩).1 (hrpre2 ⟨o, ho⟩).2
          · intro o ho
            rw [List.drop_append_of_le_length (by omega)]
            exact not_prefix_append (hrpost2 ⟨o, ho⟩).1 (hrpost2 ⟨o, ho⟩).2
          · intro o ho hlen
            exact cross_refute hcapmem (fun m hmem => (hcross m hmem).2) ho hlen
        have horig : occCount d (r.pre ++ (cap ++ (r.post ++ rest)))
            = occCount d cap + occCount d rest := by
          apply occCount_K
          · intro o ho
            rcases Nat.eq_zero_or_pos o with rfl | hpos
            · rw [List.drop_zero]
              intro hx
              have hnone := hA _ hx
              rw [← hs'] at hnone
              rw [hm] at hnone
              exact absurd hnone (by simp)
            · rw [List.drop_append_of_le_length (by omega)]
              rcases hpre2 ⟨o, ho⟩ with h2 | h2
              · have h2' : o = 0 := h2
                omega
              · exact not_prefix_append h2.1 h2.2
          · intro o ho
            rw [List.drop_append_of_le_length (by omega)]
            exact not_prefix_append (hpost2 ⟨o, ho⟩).1 (hpost2 ⟨o, ho⟩).2
          · intro o ho hlen
            exact cross_refute hcapmem (fun m hmem => (hcross m hmem).1) ho hlen
        rw [hsub', hnew, hrec]
        conv_rhs => rw [hs']
        rw [horig]

end FixFindObject

namespace FixFindObject

theorem pyCountF_congr (p : Char) (ps : Text) :
    ∀ (f1 f2 : Nat) (s : Text), s.length ≤ f1 → s.length ≤ f2 →
      pyCountF p ps f1 s = pyCountF p ps f2 s := by
  intro f1
  induction f1 with
  | zero =>
    intro f2 s h1 _
    have : s = [] := List.length_eq_zero.1 (Nat.le_zero.1 h1)
    subst this
    cases f2 <;> rfl
  | succ g ih =>
    intro f2 s h1 h2
    cases s with
    | nil => cases f2 <;> rfl
    | cons c cs =>
      cases f2 with
      | zero => simp at h2
      | succ g2 =>
        simp only [List.length_cons] at h1 h2
        by_cases hp : (p :: ps).isPrefixOf (c :: cs)
        · simp only [pyCountF, if_pos hp]
          rw [ih g2 (cs.drop ps.length)
            (by simp only [List.length_drop]; omega)
            (by simp only [List.length_drop]; omega)]
        · simp only [pyCountF, if_neg hp]
          rw [ih g2 cs (by omega) (by omega)]

/-- For a search string whose `F` appears only at its head — true of
all seven de-escaped patterns — occurrences cannot overlap, so
Python's greedy non-overlapping count agrees with the per-position
occurrence count. -/
theorem pyCount_eq_occCount {d : Text} (hdF : d.head? = some 'F')
    (hdtail : ∀ c ∈ d.tail, c ≠ 'F') :
    ∀ (n : Nat) (s : Text), s.length ≤ n → pyCount d s = occCount d s := by
  rcases hd : d with _ | ⟨d0, dt⟩
  · rw [hd] at hdF
    simp at hdF
  · rw [hd] at hdF
    have hd0 : d0 = 'F' := by simpa using hdF
    subst hd0
    rw [hd] at hdtail
    simp only [List.tail_cons] at hdtail
    intro n
    induction n with
    | zero =>
      intro s hs
      have : s = [] := List.length_eq_zero.1 (Nat.le_zero.1 hs)
      subst this
      rfl
    | succ n ih =>
      intro s hs
      cases s with
      | nil => rfl
      | cons c cs =>
        simp only [List.length_cons] at hs
        by_cases hp : ('F' :: dt) <+: (c :: cs)
        · have hb : ('F' :: dt).isPrefixOf (c :: cs) = true := by
            rwa [List.isPrefixOf_iff_prefix]
          have hpy : pyCount ('F' :: dt) (c :: cs)
              = pyCount ('F' :: dt) (cs.drop dt.length) + 1 := by
            show pyCountF 'F' dt (cs.length + 1) (c :: cs) = _
            rw [pyCountF, if_pos hb]
            congr 1
            exact pyCountF_congr 'F' dt cs.length (cs.drop dt.length).length _
              (by simp only [List.length_drop]; omega) (le_refl _)
          obtain ⟨w, hw⟩ := hp
          simp only [List.cons_append, List.cons_eq_cons] at hw
          have hnof : ∀ i, i < dt.length → ¬ ('F' :: dt) <+: cs.drop i := by
            intro i hi hocc
            rw [← hw.2, List.drop_append_of_le_length (by omega)] at hocc
            rcases hdrop : dt.drop i with _ | ⟨e, z⟩
            · have : dt.length - i = 0 := by
                rw [← List.length_drop, hdrop]
                rfl
              omega
            · rw [hdrop, List.cons_append, List.cons_prefix_cons] at hocc
              refine hdtail e ?_ hocc.1.symm
              exact List.drop_subset i dt (by rw [hdrop]; exact List.mem_cons_self _ _)
          have hocc1 : occCount ('F' :: dt) (c :: cs)
              = 1 + occCount ('F' :: dt) (cs.drop dt.length) := by
            have hp2 : ('F' :: dt) <+: (c :: cs) :=
              ⟨w, by rw [List.cons_append, hw.1, hw.2]⟩
            rw [occCount_cons, if_pos hp2, occCount_eq_drop dt.length cs hnof]
          have hih : pyCount ('F' :: dt) (cs.drop dt.length)
              = occCount ('F' :: dt) (cs.drop dt.length) := by
            apply ih
            simp only [List.length_drop]
            omega
          omega
        · have hb : ('F' :: dt).isPrefixOf (c :: cs) = false := by
            rw [← Bool.not_eq_true, List.isPrefixOf_iff_prefix]
            exact hp
          have hpy : pyCount ('F' :: dt) (c :: cs) = pyCount ('F' :: dt) cs := by
            show pyCountF 'F' dt (cs.length + 1) (c :: cs) = _
            rw [pyCountF, if_neg (by simp [hb])]
            exact pyCountF_congr 'F' dt cs.length cs.length cs (le_refl _) (le_refl _)
          rw [hpy, occCount_cons, if_neg hp, Nat.zero_add]
          exact ih cs (by omega)

end FixFindObject

namespace FixFindObject

/-- All seven rules are compatible with all seven de-escaped pattern
strings. -/
theorem compat_all : ∀ r ∈ RULES, ∀ d ∈ DS, Compat r d := by decide

/-- No rule's substitution ever changes the number of occurrences of
any of the seven de-escaped pattern strings: the count the code takes
on the current text equals the count on the original text. -/
theorem pyCount_subst :
    ∀ r ∈ RULES, ∀ d ∈ DS, ∀ t : Text, pyCount d (subst r t) = pyCount d t := by
  intro r hr d hd t
  have hC := compat_all r hr d hd
  have hA : ∀ s : Text, d <+: s → matchAt r s = none := matchAt_none_of_occ r hr d hd
  have hocc := occCount_subst_gen hA hC t.length t (le_refl _)
  have h1 := pyCount_eq_occCount hC.1 hC.2.1 (subst r t).length (subst r t) (le_refl _)
  have h2 := pyCount_eq_occCount hC.1 hC.2.1 t.length t (le_refl _)
  rw [h1, hocc, ← h2]

theorem countF_append : ∀ a b : Text, countF (a ++ b) = countF a + countF b := by
  intro a b
  induction a with
  | nil => simp [countF]
  | cons c cs ih =>
    simp only [List.cons_append, countF, List.append_eq, ih]
    omega

theorem countF_subst_mono {r : Rule}
    (hd : countF (r.pre ++ r.post) < countF (r.rpre ++ r.rpost)) :
    ∀ (n : Nat) (t : Text), t.length ≤ n →
      countF t ≤ countF (subst r t) ∧
        (subst r t ≠ t → countF t < countF (subst r t)) := by
  intro n
  induction n with
  | zero =>
    intro t ht
    have : t = [] := List.length_eq_zero.1 (Nat.le_zero.1 ht)
    subst this
    exact ⟨le_refl _, fun h => absurd rfl h⟩
  | succ n ih =>
    intro t ht
    cases t with
    | nil => exact ⟨le_refl _, fun h => absurd rfl h⟩
    | cons c cs =>
      simp only [List.length_cons] at ht
      rcases hm : matchAt r (c :: cs) with _ | ⟨cap, rest⟩
      · rw [subst_of_matchAt_none hm]
        have hrec := ih cs (by omega)
        constructor
        · simp only [countF]
          omega
        · intro hne
          have : subst r cs ≠ cs := fun he => hne (by rw [he])
          have := hrec.2 this
          simp only [countF]
          omega
      · obtain ⟨hs, -, -⟩ := matchAt_some hm
        rw [subst_of_matchAt_some hm]
        have hrest_len := matchAt_rest_length hm
        have hrec := (ih rest (by simp only [List.length_cons] at hrest_len; omega)).1
        have hleft : countF (c :: cs)
            = countF r.pre + countF cap + countF r.post + countF rest := by
          rw [hs]
          simp only [countF_append]
        have hright : countF (r.rpre ++ cap ++ r.rpost ++ subst r rest)
            = countF r.rpre + countF cap + countF r.rpost + countF (subst r rest) := by
          simp only [countF_append]
        have hdlt : countF r.pre + countF r.post < countF r.rpre + countF r.rpost := by
          simp only [countF_append] at hd
          omega
        have hstrict : countF (c :: cs) < countF (r.rpre ++ cap ++ r.rpost ++ subst r rest) := by
          rw [hleft, hright]
          omega
        exact ⟨Nat.le_of_lt hstrict, fun _ => hstrict⟩

/-- Every rule's substitution weakly increases, and on change strictly
increases, the number of `F` characters in the text. -/
theorem countF_rules :
    ∀ r ∈ RULES, ∀ t : Text,
      countF t ≤ countF (subst r t) ∧
        (subst r t ≠ t → countF t < countF (subst r t)) := by
  intro r hr t
  have hd : countF (r.pre ++ r.post) < countF (r.rpre ++ r.rpost) := by
    fin_cases hr <;> decide
  exact countF_subst_mono hd t.length t (le_refl _)

theorem applyRules_fst_countF :
    ∀ rs : List Rule, (∀ r ∈ rs, r ∈ RULES) → ∀ t : Text,
      countF t ≤ countF (applyRules rs t).1 := by
  intro rs
  induction rs with
  | nil => intro _ t; exact le_refl _
  | cons r rs ih =>
    intro h t
    have h1 := (countF_rules r (h r (by simp)) t).1
    have h2 := ih (fun q hq => h q (by simp [hq])) (subst r t)
    rw [applyRules_fst_cons]
    omega

/-- If the rule pipeline returns the original text, no rule changed
anything along the way, so the accumulated count is zero. -/
theorem applyRules_snd_zero :
    ∀ rs : List Rule, (∀ r ∈ rs, r ∈ RULES) → ∀ t : Text,
      (applyRules rs t).1 = t → (applyRules rs t).2 = 0 := by
  intro rs
  induction rs with
  | nil => intro _ t _; rfl
  | cons r rs ih =>
    intro h t hfin
    have hfin' : (applyRules rs (subst r t)).1 = t := by
      rw [← applyRules_fst_cons]
      exact hfin
    have hchain := applyRules_fst_countF rs (fun q hq => h q (by simp [hq])) (subst r t)
    rw [hfin'] at hchain
    have hmono := countF_rules r (h r (by simp)) t
    have heq : subst r t = t := by
      by_contra hne
      have := hmono.2 hne
      omega
    have hrs := ih (fun q hq => h q (by simp [hq])) t (by rwa [heq] at hfin')
    simp only [applyRules, heq, ne_eq, not_true_eq_false, if_false]
    simp [hrs]

/-- The accumulated count of the pipeline equals the spec's sum: each
rule's count, taken by the code on the current text, equals the count
on the original text. -/
theorem applyRules_snd_specSum :
    ∀ rs : List Rule, (∀ r ∈ rs, r ∈ RULES) → ∀ orig cur : Text,
      (∀ d ∈ DS, pyCount d cur = pyCount d orig) →
      (applyRules rs cur).2 = specSum rs cur orig := by
  intro rs
  induction rs with
  | nil => intro _ orig cur _; rfl
  | cons r rs ih =>
    intro h orig cur hcnt
    have hrR := h r (by simp)
    have hd_mem : deEscape r.pat ∈ DS := List.mem_map_of_mem _ hrR
    have hcnt' : ∀ d ∈ DS, pyCount d (subst r cur) = pyCount d orig := by
      intro d hd
      rw [pyCount_subst r hrR d hd, hcnt d hd]
    have hrec := ih (fun q hq => h q (by simp [hq])) orig (subst r cur) hcnt'
    simp only [applyRules, specSum, hrec, hcnt _ hd_mem]

/-- C4: the replacement count returned by `fix_file` equals the sum,
over exactly those rules whose substitution changed the text, of the
number of occurrences in the original (pre-rewrite) content of the
rule's matched literal text obtained by undoing the escaping in the
pattern.  (The code counts in the current, partially rewritten text,
but no rule's substitution can create or destroy an occurrence of any
of the seven de-escaped pattern strings, so the counts agree; and if
the final text equals the original then no rule changed anything, so
the returned `0` also equals the sum.) -/
theorem claim4_replacement_count (p : String) (t : Text) :
    (fixFile p (Except.ok t)).count = specSum RULES t t ∧
    changesMade t = specSum RULES t t := by
  have hsnd : (applyRules RULES t).2 = specSum RULES t t :=
    applyRules_snd_specSum RULES (fun r hr => hr) t t (fun d _ => rfl)
  constructor
  · by_cases hch : (applyRules RULES t).1 = t
    · have h0 := applyRules_snd_zero RULES (fun r hr => hr) t hch
      simp [fixFile, hch, ← hsnd, h0]
    · simp [fixFile, hch, hsnd]
  · exact hsnd

end FixFindObject
